import Mathlib

/-!
Verification of the task-scheduler engine of `codigo3.py`.

The Python program is embedded shallowly:

* `Task` mirrors the `Task` class.  Python `set` fields are modelled as
  duplicate-free `List String` (the constructor `set(dependencies)` is
  modelled by `List.dedup`); set membership, removal and emptiness are the
  corresponding list operations.
* The `heapq` functions used by the program (`heappush`, `heappop` and the
  internal `_siftdown` / `_siftup`) are translated literally, operating on a
  `List Task` viewed as the binary-heap array.  The Python code holds the
  moving item in a local variable and writes it once at the end; the
  translation performs the same moves as successive swaps, which yields the
  same final array.  Recursion is by an explicit fuel argument that is always
  sufficient, so every function computes by `decide` / `rfl`.
* `TM` is the state of a `TaskManager` instance: the insertion-ordered dict
  `task_dict` (an association list, as Python dicts preserve insertion
  order), the heap array, the completed set, and the persisted file
  (`none` = the file does not exist, `some none` = the file exists but is
  not valid JSON, `some (some doc)` = the file holds a valid document).
-/

namespace Codigo3

structure Task where
  name : String
  priority : Int
  due_date : String
  dependencies : List String
deriving DecidableEq

/-- Constructor `Task.__init__`: `set(dependencies) if dependencies else set()`.
Both `None` and `[]` are falsy, so each yields the empty set. -/
def mkTask (name : String) (priority : Int) (due_date : String)
    (dependencies : Option (List String)) : Task :=
  { name := name, priority := priority, due_date := due_date,
    dependencies := (dependencies.getD []).dedup }

/-- Comparison `Task.__lt__`: order by priority, then by due date (lexicographic string
comparison by code point, which on ISO `YYYY-MM-DD` strings is
chronological). -/
def taskLt (a b : Task) : Bool :=
  if a.priority = b.priority then decide (a.due_date.data < b.due_date.data)
  else decide (a.priority < b.priority)

/-- The comparison key of a task: its `(priority, due_date)` pair under the
lexicographic order, which is exactly the order `Task.__lt__` implements. -/
def taskKey (a : Task) : Lex (Int × String) := toLex (a.priority, a.due_date)

theorem taskLt_iff_key {a b : Task} : taskLt a b = true ↔ taskKey a < taskKey b := by
  unfold taskLt taskKey
  rw [Prod.Lex.lt_iff]
  by_cases hp : a.priority = b.priority
  · rw [if_pos hp]
    simp only [decide_eq_true_eq, hp, lt_self_iff_false, false_or, eq_self_iff_true, true_and]
    exact (String.lt_iff_toList_lt).symm
  · rw [if_neg hp]
    simp only [decide_eq_true_eq]
    exact ⟨fun h => Or.inl h, fun h => h.elim id fun h2 => absurd h2.1 hp⟩

theorem taskLt_false_iff {a b : Task} : taskLt a b = false ↔ taskKey b ≤ taskKey a := by
  rw [Bool.eq_false_iff, Ne, taskLt_iff_key, not_lt]

theorem taskLt_irrefl (a : Task) : taskLt a a = false := by
  rw [taskLt_false_iff]

theorem taskLt_asymm {a b : Task} (h : taskLt a b = true) : taskLt b a = false := by
  rw [taskLt_false_iff]
  exact le_of_lt (taskLt_iff_key.mp h)

/-- Transitivity of the non-strict companion order: `¬ b < a → ¬ c < b → ¬ c < a`. -/
theorem taskLt_not_trans {a b c : Task} (h1 : taskLt b a = false)
    (h2 : taskLt c b = false) : taskLt c a = false := by
  rw [taskLt_false_iff] at h1 h2 ⊢
  exact le_trans h1 h2

/-- From `a < b` and `¬ c < b` conclude `¬ c < a` (the moving item is strictly
below everything that is at least its old parent). -/
theorem taskLt_lt_absorb {a b c : Task} (h1 : taskLt a b = true)
    (h2 : taskLt c b = false) : taskLt c a = false := by
  rw [taskLt_false_iff]
  rw [taskLt_iff_key] at h1
  rw [taskLt_false_iff] at h2
  exact le_of_lt (lt_of_lt_of_le h1 h2)

/-! ## The `heapq` embedding -/

/-- Default element for total array indexing (never actually read in bounds). -/
def dTask : Task := { name := "", priority := 0, due_date := "", dependencies := [] }

/-- Read slot `i` of the heap array. -/
def hGet (l : List Task) (i : Nat) : Task := l.getD i dTask

/-- Exchange slots `i` and `j` of the heap array. -/
def hSwap (l : List Task) (i j : Nat) : List Task :=
  (l.set i (hGet l j)).set j (hGet l i)

/-- Index of the parent slot of slot `i`. -/
def parentIdx (i : Nat) : Nat := (i - 1) / 2

/-- Python `heapq._siftdown(heap, startpos, pos)`: bubble the item at `pos` up while
it is smaller than its parent.  `fuel ≥ pos` suffices, as the position
strictly decreases. -/
def siftdownF : Nat → List Task → Nat → Nat → List Task
  | 0, l, _, _ => l
  | fuel + 1, l, startpos, pos =>
    if startpos < pos then
      if taskLt (hGet l pos) (hGet l (parentIdx pos)) then
        siftdownF fuel (hSwap l pos (parentIdx pos)) startpos (parentIdx pos)
      else l
    else l

def siftdown (l : List Task) (startpos pos : Nat) : List Task :=
  siftdownF pos l startpos pos

/-- Python `heapq.heappush`: append at the end, then sift down from the new slot. -/
def heappush (l : List Task) (x : Task) : List Task :=
  siftdown (l ++ [x]) 0 l.length

/-- The child slot `_siftup` swaps with: the right child `2*pos+2` when it
exists and the left one does not compare strictly smaller, else the left
child `2*pos+1` (Python: `childpos`, `rightpos` and the
`not heap[childpos] < heap[rightpos]` test). -/
def chooseChild (l : List Task) (pos : Nat) : Nat :=
  if 2 * pos + 2 < l.length && !(taskLt (hGet l (2 * pos + 1)) (hGet l (2 * pos + 2))) then
    2 * pos + 2
  else 2 * pos + 1

/-- The descending loop of `heapq._siftup`: walk the smaller-child path down
to a leaf, carrying the item at `pos` along; returns the array and the final
position.  `fuel ≥ l.length - pos` suffices. -/
def siftupLoopF : Nat → List Task → Nat → List Task × Nat
  | 0, l, pos => (l, pos)
  | fuel + 1, l, pos =>
    if 2 * pos + 1 < l.length then
      siftupLoopF fuel (hSwap l pos (chooseChild l pos)) (chooseChild l pos)
    else (l, pos)

/-- Python `heapq._siftup(heap, pos)`: descend to a leaf along the smaller children,
then bubble the item back up (with `startpos` the original position). -/
def siftup (l : List Task) (pos : Nat) : List Task :=
  siftdown (siftupLoopF l.length l pos).1 pos (siftupLoopF l.length l pos).2

/-- Python `heapq.heappop`, keeping only the resulting array (the popped element is
always the old slot 0).  `heap.pop()` removes the last element; if elements
remain it is written into slot 0 and sifted up. -/
def heapPopList (l : List Task) : List Task :=
  if l.length ≤ 1 then []
  else siftup ((l.take (l.length - 1)).set 0 (hGet l (l.length - 1))) 0

/-! ## Array-slot lemmas -/

theorem hGet_cons_zero (a : Task) (t : List Task) : hGet (a :: t) 0 = a := rfl

theorem hGet_cons_succ (a : Task) (t : List Task) (n : Nat) :
    hGet (a :: t) (n + 1) = hGet t n := rfl

theorem length_hSwap (l : List Task) (i j : Nat) : (hSwap l i j).length = l.length := by
  simp [hSwap]

theorem hGet_set_self {l : List Task} {i : Nat} (h : i < l.length) (v : Task) :
    hGet (l.set i v) i = v := by
  simp [hGet, List.getD_eq_getElem?_getD, List.getElem?_set, h]

theorem hGet_set_ne {l : List Task} {i j : Nat} (h : ¬ i = j) (v : Task) :
    hGet (l.set i v) j = hGet l j := by
  simp [hGet, List.getD_eq_getElem?_getD, List.getElem?_set, h]

theorem hGet_swap_fst {l : List Task} {i j : Nat} (hi : i < l.length) (hj : j < l.length) :
    hGet (hSwap l i j) i = hGet l j := by
  unfold hSwap
  by_cases hij : i = j
  · subst hij
    exact hGet_set_self (by simpa using hi) _
  · rw [hGet_set_ne (fun hh => hij hh.symm), hGet_set_self hi]

theorem hGet_swap_snd {l : List Task} {i j : Nat} (hj : j < l.length) :
    hGet (hSwap l i j) j = hGet l i := by
  unfold hSwap
  exact hGet_set_self (by simpa using hj) _

theorem hGet_swap_other {l : List Task} {i j k : Nat} (hik : ¬ k = i) (hjk : ¬ k = j) :
    hGet (hSwap l i j) k = hGet l k := by
  unfold hSwap
  rw [hGet_set_ne (fun hh => hjk hh.symm), hGet_set_ne (fun hh => hik hh.symm)]

theorem getD_cons_set_perm :
    ∀ (t : List Task) (m : Nat), m < t.length → ∀ a : Task,
      ((hGet t m) :: (t.set m a)).Perm (a :: t)
  | [], m, hm, _ => absurd hm (by simp)
  | b :: bs, 0, _, a => by
    rw [hGet_cons_zero, List.set_cons_zero]
    exact List.Perm.swap a b bs
  | b :: bs, m + 1, hm, a => by
    rw [hGet_cons_succ, List.set_cons_succ]
    have hmlen : m < bs.length := by simpa using hm
    exact (List.Perm.swap b (hGet bs m) (bs.set m a)).trans
      ((List.Perm.cons b (getD_cons_set_perm bs m hmlen a)).trans (List.Perm.swap a b bs))

theorem hSwap_perm :
    ∀ (l : List Task) (i j : Nat), i < l.length → j < l.length → (hSwap l i j).Perm l
  | [], i, _, hi, _ => absurd hi (by simp)
  | a :: t, 0, 0, _, _ => by
    simp [hSwap, hGet_cons_zero]
  | a :: t, 0, m + 1, _, hj => by
    unfold hSwap
    rw [hGet_cons_succ, hGet_cons_zero, List.set_cons_zero, List.set_cons_succ]
    exact getD_cons_set_perm t m (by simpa using hj) a
  | a :: t, n + 1, 0, hi, _ => by
    unfold hSwap
    rw [hGet_cons_zero, hGet_cons_succ, List.set_cons_succ, List.set_cons_zero]
    exact getD_cons_set_perm t n (by simpa using hi) a
  | a :: t, n + 1, m + 1, hi, hj => by
    unfold hSwap
    rw [hGet_cons_succ, hGet_cons_succ, List.set_cons_succ, List.set_cons_succ]
    exact List.Perm.cons a (hSwap_perm t n m (by simpa using hi) (by simpa using hj))

/-! ## Index arithmetic -/

theorem parentIdx_lt {i : Nat} (h : 0 < i) : parentIdx i < i := by
  unfold parentIdx
  omega

theorem parentIdx_left (p : Nat) : parentIdx (2 * p + 1) = p := by
  unfold parentIdx
  omega

theorem parentIdx_right (p : Nat) : parentIdx (2 * p + 2) = p := by
  unfold parentIdx
  omega

theorem child_of_parentIdx {j p : Nat} (h : parentIdx j = p) (hj : 0 < j) :
    j = 2 * p + 1 ∨ j = 2 * p + 2 := by
  unfold parentIdx at h
  omega

theorem lt_of_parentIdx_eq {j p : Nat} (h : parentIdx j = p) (hj : 0 < j) : p < j := by
  unfold parentIdx at h
  omega

theorem child_ge {j p : Nat} (h : parentIdx j = p) (hj : 0 < j) : 2 * p + 1 ≤ j := by
  unfold parentIdx at h
  omega

/-! ## The binary-heap invariant and its preservation -/

/-- The heap shape invariant of `heapq`: no slot is smaller than its parent. -/
def IsHeap (l : List Task) : Prop :=
  ∀ i, 0 < i → i < l.length → taskLt (hGet l i) (hGet l (parentIdx i)) = false

/-- Invariant of the bubbling-up loop `_siftdown`: every parent/child pair is
in heap order except that the moving item at `pos` may be smaller than its
parent; in addition children of `pos` are not smaller than the parent of
`pos` (so the pair can be repaired after a swap). -/
def BUp (l : List Task) (pos : Nat) : Prop :=
  (∀ i, 0 < i → i < l.length → ¬ i = pos →
     taskLt (hGet l i) (hGet l (parentIdx i)) = false)
  ∧ (∀ j, j < l.length → parentIdx j = pos → 0 < pos →
       taskLt (hGet l j) (hGet l (parentIdx pos)) = false)

/-- Invariant of the descending loop of `_siftup`: every parent/child pair
not involving the moving slot `pos` is in heap order, and children of `pos`
are not smaller than the parent of `pos`. -/
def DInv (l : List Task) (pos : Nat) : Prop :=
  (∀ i, 0 < i → i < l.length → ¬ i = pos → ¬ parentIdx i = pos →
     taskLt (hGet l i) (hGet l (parentIdx i)) = false)
  ∧ (∀ j, j < l.length → parentIdx j = pos → 0 < pos →
       taskLt (hGet l j) (hGet l (parentIdx pos)) = false)

theorem length_siftdownF : ∀ (fuel : Nat) (l : List Task) (s pos : Nat),
    (siftdownF fuel l s pos).length = l.length := by
  intro fuel
  induction fuel with
  | zero => intro l s pos; rfl
  | succ fuel ih =>
    intro l s pos
    simp only [siftdownF]
    split_ifs with h1 h2
    · rw [ih, length_hSwap]
    · rfl
    · rfl

theorem siftdownF_perm : ∀ (fuel : Nat) (l : List Task) (s pos : Nat), pos < l.length →
    (siftdownF fuel l s pos).Perm l := by
  intro fuel
  induction fuel with
  | zero => intro l s pos _; exact List.Perm.refl l
  | succ fuel ih =>
    intro l s pos hlen
    simp only [siftdownF]
    split_ifs with h1 h2
    · have hpos0 : 0 < pos := Nat.lt_of_le_of_lt (Nat.zero_le s) h1
      have hpp : parentIdx pos < pos := parentIdx_lt hpos0
      exact (ih _ _ _ (by rw [length_hSwap]; omega)).trans
        (hSwap_perm l pos (parentIdx pos) hlen (by omega))
    · exact List.Perm.refl l
    · exact List.Perm.refl l

/-- Bubbling one step up preserves the `_siftdown` invariant. -/
theorem BUp_step {l : List Task} {pos : Nat} (hpos0 : 0 < pos) (hlen : pos < l.length)
    (hBU : BUp l pos) (hlt : taskLt (hGet l pos) (hGet l (parentIdx pos)) = true) :
    BUp (hSwap l pos (parentIdx pos)) (parentIdx pos) := by
  have hplt : parentIdx pos < pos := parentIdx_lt hpos0
  have hplen : parentIdx pos < l.length := lt_trans hplt hlen
  have gpos : hGet (hSwap l pos (parentIdx pos)) pos = hGet l (parentIdx pos) :=
    hGet_swap_fst hlen hplen
  have gp : hGet (hSwap l pos (parentIdx pos)) (parentIdx pos) = hGet l pos :=
    hGet_swap_snd hplen
  constructor
  · intro i hi0 hilen hip
    rw [length_hSwap] at hilen
    by_cases hipos : i = pos
    · subst hipos
      rw [gpos, gp]
      exact taskLt_asymm hlt
    · by_cases hpar : parentIdx i = pos
      · have higt : pos < i := lt_of_parentIdx_eq hpar hi0
        have hinp : ¬ i = parentIdx pos := by omega
        rw [hGet_swap_other hipos hinp, hpar, gpos]
        exact hBU.2 i hilen hpar hpos0
      · by_cases hpip : parentIdx i = parentIdx pos
        · rw [hGet_swap_other hipos hip, hpip, gp]
          have h2 := hBU.1 i hi0 hilen hipos
          rw [hpip] at h2
          exact taskLt_lt_absorb hlt h2
        · rw [hGet_swap_other hipos hip, hGet_swap_other hpar hpip]
          exact hBU.1 i hi0 hilen hipos
  · intro j hjlen hpj hp0
    rw [length_hSwap] at hjlen
    have hppp : parentIdx (parentIdx pos) < parentIdx pos := parentIdx_lt hp0
    have g3 : hGet (hSwap l pos (parentIdx pos)) (parentIdx (parentIdx pos)) =
        hGet l (parentIdx (parentIdx pos)) :=
      hGet_swap_other (Nat.ne_of_lt (lt_trans hppp hplt)) (Nat.ne_of_lt hppp)
    have hbp : taskLt (hGet l (parentIdx pos)) (hGet l (parentIdx (parentIdx pos))) = false :=
      hBU.1 (parentIdx pos) hp0 hplen (Nat.ne_of_lt hplt)
    rw [g3]
    by_cases hj : j = pos
    · subst hj
      rw [gpos]
      exact hbp
    · have hj0 : 0 < j := by
        unfold parentIdx at hpj hp0
        omega
      have hjgt : parentIdx pos < j := lt_of_parentIdx_eq hpj hj0
      have h2 := hBU.1 j hj0 hjlen hj
      rw [hpj] at h2
      rw [hGet_swap_other hj (Nat.ne_of_gt hjgt)]
      exact taskLt_not_trans hbp h2

/-- The bubbling-up loop turns its invariant into the full heap property. -/
theorem siftdownF_isHeap : ∀ (fuel pos : Nat) (l : List Task), pos ≤ fuel → pos < l.length →
    BUp l pos → IsHeap (siftdownF fuel l 0 pos) := by
  intro fuel
  induction fuel with
  | zero =>
    intro pos l hf hlen hBU
    have hp0 : pos = 0 := Nat.le_zero.mp hf
    subst hp0
    intro i hi0 hilen
    exact hBU.1 i hi0 hilen (by omega)
  | succ fuel ih =>
    intro pos l hf hlen hBU
    simp only [siftdownF]
    split_ifs with h1 h2
    · have hpp : parentIdx pos < pos := parentIdx_lt h1
      exact ih (parentIdx pos) _ (by omega) (by rw [length_hSwap]; omega)
        (BUp_step h1 hlen hBU h2)
    · intro i hi0 hilen
      by_cases hip : i = pos
      · subst hip
        exact Bool.eq_false_iff.mpr h2
      · exact hBU.1 i hi0 hilen hip
    · intro i hi0 hilen
      exact hBU.1 i hi0 hilen (by omega)

theorem chooseChild_gt_pos (l : List Task) (pos : Nat) : pos < chooseChild l pos := by
  unfold chooseChild
  split_ifs <;> omega

theorem chooseChild_lt {l : List Task} {pos : Nat} (h : 2 * pos + 1 < l.length) :
    chooseChild l pos < l.length := by
  unfold chooseChild
  split_ifs with hc
  · simp only [Bool.and_eq_true, decide_eq_true_eq] at hc
    exact hc.1
  · exact h

theorem parentIdx_chooseChild (l : List Task) (pos : Nat) :
    parentIdx (chooseChild l pos) = pos := by
  unfold chooseChild
  split_ifs
  · exact parentIdx_right pos
  · exact parentIdx_left pos

/-- The chosen child is minimal among the (at most two) children of `pos`. -/
theorem chooseChild_min {l : List Task} {pos : Nat} :
    ∀ o, 0 < o → o < l.length → parentIdx o = pos → ¬ o = chooseChild l pos →
      taskLt (hGet l o) (hGet l (chooseChild l pos)) = false := by
  intro o ho0 holen hpar hne
  rcases child_of_parentIdx hpar ho0 with rfl | rfl
  · unfold chooseChild at hne ⊢
    split_ifs at hne ⊢ with hc
    · simp only [Bool.and_eq_true, decide_eq_true_eq, Bool.not_eq_eq_eq_not, Bool.not_true] at hc
      exact hc.2
    · exact absurd rfl hne
  · unfold chooseChild at hne ⊢
    split_ifs at hne ⊢ with hc
    · exact absurd rfl hne
    · simp only [Bool.and_eq_true, decide_eq_true_eq, not_and] at hc
      have hlt : taskLt (hGet l (2 * pos + 1)) (hGet l (2 * pos + 2)) = true := by
        by_contra hx
        exact absurd (by simp [Bool.eq_false_iff.mpr hx]) (hc holen)
      exact taskLt_asymm hlt

/-- One descending swap preserves the `_siftup` invariant, for any child slot
`c` of `pos` that is minimal among the children of `pos`. -/
theorem DInv_step {l : List Task} {pos c : Nat} (hlen : pos < l.length) (hD : DInv l pos)
    (hclen : c < l.length) (hcgt : pos < c) (hcpar : parentIdx c = pos)
    (hcmin : ∀ o, 0 < o → o < l.length → parentIdx o = pos → ¬ o = c →
      taskLt (hGet l o) (hGet l c) = false) :
    DInv (hSwap l pos c) c := by
  have gpos : hGet (hSwap l pos c) pos = hGet l c := hGet_swap_fst hlen hclen
  have gc : hGet (hSwap l pos c) c = hGet l pos := hGet_swap_snd hclen
  constructor
  · intro i hi0 hilen hic hpic
    rw [length_hSwap] at hilen
    by_cases hipos : i = pos
    · subst hipos
      have hpplt : parentIdx i < i := parentIdx_lt hi0
      rw [gpos, hGet_swap_other (by omega) (by omega)]
      exact hD.2 c hclen hcpar hi0
    · by_cases hpar : parentIdx i = pos
      · rw [hGet_swap_other hipos hic, hpar, gpos]
        exact hcmin i hi0 hilen hpar hic
      · rw [hGet_swap_other hipos hic, hGet_swap_other hpar hpic]
        exact hD.1 i hi0 hilen hipos hpar
  · intro j hjlen hpj hc0
    rw [length_hSwap] at hjlen
    have hj0 : 0 < j := by
      unfold parentIdx at hpj
      omega
    have hjgt : c < j := lt_of_parentIdx_eq hpj hj0
    rw [hcpar, gpos, hGet_swap_other (by omega) (by omega)]
    have h2 := hD.1 j hj0 hjlen (by omega) (by rw [hpj]; omega)
    rw [hpj] at h2
    exact h2

theorem length_siftupLoopF : ∀ (fuel : Nat) (l : List Task) (pos : Nat),
    ((siftupLoopF fuel l pos).1).length = l.length := by
  intro fuel
  induction fuel with
  | zero => intro l pos; rfl
  | succ fuel ih =>
    intro l pos
    simp only [siftupLoopF]
    split_ifs with h1
    · rw [ih, length_hSwap]
    · rfl

theorem siftupLoopF_perm : ∀ (fuel : Nat) (l : List Task) (pos : Nat), pos < l.length →
    ((siftupLoopF fuel l pos).1).Perm l := by
  intro fuel
  induction fuel with
  | zero => intro l pos _; exact List.Perm.refl l
  | succ fuel ih =>
    intro l pos hlen
    simp only [siftupLoopF]
    split_ifs with h1
    · exact (ih _ _ (by rw [length_hSwap]; exact chooseChild_lt h1)).trans
        (hSwap_perm l pos (chooseChild l pos) hlen (chooseChild_lt h1))
    · exact List.Perm.refl l

theorem siftupLoopF_pos_lt : ∀ (fuel : Nat) (l : List Task) (pos : Nat), pos < l.length →
    (siftupLoopF fuel l pos).2 < ((siftupLoopF fuel l pos).1).length := by
  intro fuel
  induction fuel with
  | zero => intro l pos h; exact h
  | succ fuel ih =>
    intro l pos hlen
    simp only [siftupLoopF]
    split_ifs with h1
    · exact ih _ _ (by rw [length_hSwap]; exact chooseChild_lt h1)
    · exact hlen

/-- The descending loop turns the `_siftup` invariant into the bubbling-up
invariant at the final (leaf) position. -/
theorem siftupLoopF_BUp : ∀ (fuel : Nat) (l : List Task) (pos : Nat),
    l.length - pos ≤ fuel → pos < l.length → DInv l pos →
    BUp (siftupLoopF fuel l pos).1 (siftupLoopF fuel l pos).2 := by
  intro fuel
  induction fuel with
  | zero => intro l pos hf hlen hD; omega
  | succ fuel ih =>
    intro l pos hf hlen hD
    simp only [siftupLoopF]
    split_ifs with h1
    · have hclen := chooseChild_lt h1
      have hcgt := chooseChild_gt_pos l pos
      apply ih
      · rw [length_hSwap]; omega
      · rw [length_hSwap]; exact hclen
      · exact DInv_step hlen hD hclen hcgt (parentIdx_chooseChild l pos)
          (fun o ho0 holen hpar hne => chooseChild_min o ho0 holen hpar hne)
    · show BUp l pos
      constructor
      · intro i hi0 hilen hip
        apply hD.1 i hi0 hilen hip
        intro hpar
        have := child_ge hpar hi0
        omega
      · exact hD.2

theorem siftup_isHeap {l : List Task} (hlen : 0 < l.length) (hD : DInv l 0) :
    IsHeap (siftup l 0) := by
  unfold siftup siftdown
  exact siftdownF_isHeap _ _ _ (le_refl _) (siftupLoopF_pos_lt l.length l 0 hlen)
    (siftupLoopF_BUp l.length l 0 (by omega) hlen hD)

theorem siftup_perm {l : List Task} (hlen : 0 < l.length) : (siftup l 0).Perm l := by
  unfold siftup siftdown
  exact (siftdownF_perm _ _ _ _ (siftupLoopF_pos_lt l.length l 0 hlen)).trans
    (siftupLoopF_perm l.length l 0 hlen)

/-! ## `heappush` and `heappop` preserve the heap invariant -/

theorem hGet_append {l l2 : List Task} {i : Nat} (h : i < l.length) :
    hGet (l ++ l2) i = hGet l i := by
  simp [hGet, List.getD_eq_getElem?_getD, List.getElem?_append, h]

theorem heappush_isHeap {l : List Task} (h : IsHeap l) (x : Task) : IsHeap (heappush l x) := by
  unfold heappush siftdown
  apply siftdownF_isHeap _ _ _ (le_refl _) (by simp)
  constructor
  · intro i hi0 hilen hip
    have hilt : i < l.length := by
      simp only [List.length_append, List.length_cons, List.length_nil] at hilen
      omega
    have hpilt : parentIdx i < l.length := lt_trans (parentIdx_lt hi0) hilt
    rw [hGet_append hilt, hGet_append hpilt]
    exact h i hi0 hilt
  · intro j hjlen hpj hp0
    simp only [List.length_append, List.length_cons, List.length_nil] at hjlen
    unfold parentIdx at hpj
    omega

theorem heappush_perm (l : List Task) (x : Task) : (heappush l x).Perm (x :: l) := by
  unfold heappush siftdown
  exact (siftdownF_perm _ _ _ _ (by simp)).trans (List.perm_append_singleton x l)

theorem length_heappush (l : List Task) (x : Task) :
    (heappush l x).length = l.length + 1 := by
  unfold heappush siftdown
  rw [length_siftdownF]
  simp

theorem mem_heappush {l : List Task} {x t : Task} :
    t ∈ heappush l x ↔ t = x ∨ t ∈ l := by
  rw [(heappush_perm l x).mem_iff, List.mem_cons]

/-- Slot `i` of the array `heappop` works on (last element moved into slot 0). -/
theorem hGet_popInit {l : List Task} {i : Nat} (hi0 : ¬ i = 0) (hilt : i < l.length - 1)
    (v : Task) : hGet ((l.take (l.length - 1)).set 0 v) i = hGet l i := by
  rw [hGet_set_ne (fun hh => hi0 hh.symm)]
  rw [hGet, hGet, List.getD_eq_getElem?_getD, List.getD_eq_getElem?_getD, List.getElem?_take,
    if_pos hilt]

theorem length_popInit {l : List Task} (h : 1 < l.length) (v : Task) :
    ((l.take (l.length - 1)).set 0 v).length = l.length - 1 := by
  rw [List.length_set, List.length_take]
  omega

theorem heapPopList_isHeap {l : List Task} (h : IsHeap l) : IsHeap (heapPopList l) := by
  unfold heapPopList
  split_ifs with h1
  · intro i hi0 hilen
    exact absurd hilen (by simp)
  · push_neg at h1
    apply siftup_isHeap
    · rw [length_popInit h1]
      omega
    · constructor
      · intro i hi0 hilen hip hpip
        rw [length_popInit h1] at hilen
        have hpi0 : 0 < parentIdx i := Nat.pos_of_ne_zero (fun hh => hpip hh)
        have hpilt : parentIdx i < i := parentIdx_lt hi0
        rw [hGet_popInit hip hilen, hGet_popInit hpip (by omega)]
        exact h i hi0 (by omega)
      · intro j hjlen hpj hp0
        exact absurd hp0 (lt_irrefl 0)

theorem hGet_last {t : List Task} (ht : t ≠ []) : hGet t (t.length - 1) = t.getLast ht := by
  rw [hGet, List.getD_eq_getElem?_getD, ← List.getLast?_eq_getElem?, List.getLast?_eq_getLast t ht]
  rfl

theorem heapPopList_perm {l : List Task} (hne : l ≠ []) :
    l.Perm (hGet l 0 :: heapPopList l) := by
  unfold heapPopList
  split_ifs with h1
  · match l, hne with
    | [a], _ => exact List.Perm.refl [a]
    | a :: b :: t, _ => simp at h1
  · push_neg at h1
    have hperm : (siftup ((l.take (l.length - 1)).set 0 (hGet l (l.length - 1))) 0).Perm
        ((l.take (l.length - 1)).set 0 (hGet l (l.length - 1))) :=
      siftup_perm (by rw [length_popInit h1]; omega)
    refine List.Perm.trans ?_ (List.Perm.cons (hGet l 0) hperm.symm)
    match l, h1 with
    | a :: b :: t, _ =>
      have hlen2 : (a :: b :: t).length - 1 = (b :: t).length := rfl
      rw [hlen2]
      have htake : (a :: b :: t).take ((b :: t).length) = a :: (b :: t).take (t.length) := by
        rw [List.length_cons, List.take_succ_cons]
      rw [htake, List.set_cons_zero]
      show (a :: b :: t).Perm (a :: hGet (a :: b :: t) ((b :: t).length) :: (b :: t).take t.length)
      apply List.Perm.cons a
      have hbt : b :: t ≠ [] := by simp
      have hg : hGet (a :: b :: t) ((b :: t).length) = (b :: t).getLast hbt := by
        rw [List.length_cons, hGet_cons_succ]
        have hlt : t.length = (b :: t).length - 1 := rfl
        rw [hlt]
        exact hGet_last hbt
      rw [hg]
      have hsplit : ((b :: t).take t.length ++ [(b :: t).getLast hbt]).Perm
          ((b :: t).getLast hbt :: (b :: t).take t.length) :=
        List.perm_append_singleton _ _
      refine List.Perm.trans ?_ hsplit
      have hdl : (b :: t).dropLast ++ [(b :: t).getLast hbt] = b :: t :=
        List.dropLast_append_getLast hbt
      have hdt : (b :: t).dropLast = (b :: t).take t.length := by
        rw [List.dropLast_eq_take]
        rfl
      rw [hdt] at hdl
      rw [hdl]

theorem mem_of_mem_heapPopList {l : List Task} {t : Task} (hne : l ≠ [])
    (h : t ∈ heapPopList l) : t ∈ l :=
  (heapPopList_perm hne).mem_iff.mpr (List.mem_cons_of_mem _ h)

theorem mem_heapPopList_of_ne {l : List Task} {t : Task} (hne : l ≠ [])
    (hmem : t ∈ l) (hhd : ¬ t = hGet l 0) : t ∈ heapPopList l := by
  rcases List.mem_cons.mp ((heapPopList_perm hne).mem_iff.mp hmem) with h | h
  · exact absurd h hhd
  · exact h

theorem length_heapPopList {l : List Task} (hne : l ≠ []) :
    (heapPopList l).length = l.length - 1 := by
  have := (heapPopList_perm hne).length_eq
  simp only [List.length_cons] at this
  omega

/-! ## Root minimality -/

theorem isHeap_root_min {l : List Task} (h : IsHeap l) :
    ∀ i, i < l.length → taskLt (hGet l i) (hGet l 0) = false := by
  intro i
  induction i using Nat.strong_induction_on with
  | _ i ih =>
    intro hilen
    rcases Nat.eq_zero_or_pos i with rfl | hi0
    · exact taskLt_irrefl _
    · have hp := parentIdx_lt hi0
      exact taskLt_not_trans (ih (parentIdx i) hp (by omega)) (h i hi0 hilen)

theorem isHeap_mem_min {l : List Task} {x : Task} (h : IsHeap l) (hx : x ∈ l) :
    taskLt x (hGet l 0) = false := by
  rcases List.mem_iff_getElem.mp hx with ⟨i, hilen, hget⟩
  have : hGet l i = x := by
    rw [hGet, List.getD_eq_getElem?_getD, List.getElem?_eq_getElem hilen]
    exact hget
  rw [← this]
  exact isHeap_root_min h i hilen

/-! ## Input validation

`add_task` rejects blank names (`not name.strip()`), non-integer priorities
(`isinstance(priority, int)`) and dates `datetime.strptime` cannot parse as
`"%Y-%m-%d"`. -/

/-- The ASCII whitespace characters `str.strip()` removes (Python also strips
the rare non-ASCII Unicode spaces; names are modelled over this ASCII set). -/
def isPySpace (c : Char) : Bool :=
  c = ' ' || c = '\t' || c = '\n' || c = '\r' || c = '\x0b' || c = '\x0c'

/-- Test `not name.strip()`: the name is empty or consists only of whitespace. -/
def isBlankName (s : String) : Bool := s.toList.all isPySpace

def digitsVal (cs : List Char) : Nat :=
  cs.foldl (fun a c => a * 10 + (c.toNat - 48)) 0

def allDigits (cs : List Char) : Bool := cs.all (fun c => c.isDigit)

/-- The `%Y` pattern: exactly four digits. -/
def yearOK (cs : List Char) : Bool := decide (cs.length = 4) && allDigits cs

/-- The `%m` / `%d` patterns: one or two digits whose value is in `[lo, hi]`
with no all-zero field (`0` is below `lo = 1`). -/
def fieldOK (lo hi : Nat) (cs : List Char) : Bool :=
  (decide (cs.length = 1) || decide (cs.length = 2)) && allDigits cs &&
    decide (lo ≤ digitsVal cs) && decide (digitsVal cs ≤ hi)

def isLeapYear (y : Nat) : Bool :=
  decide (y % 4 = 0) && (decide (¬ y % 100 = 0) || decide (y % 400 = 0))

def daysInMonth (y m : Nat) : Nat :=
  if m = 2 then (if isLeapYear y then 29 else 28)
  else if m = 4 ∨ m = 6 ∨ m = 9 ∨ m = 11 then 30
  else 31

/-- Split a character list at every `'-'` (the separators of the
`"%Y-%m-%d"` pattern). -/
def splitDash : List Char → List (List Char)
  | [] => [[]]
  | c :: cs =>
    if c = '-' then [] :: splitDash cs
    else
      match splitDash cs with
      | [] => [[c]]
      | g :: gs => (c :: g) :: gs

/-- Holds when `datetime.strptime(s, "%Y-%m-%d")` succeeds: the string splits into
year-month-day fields matching the `_strptime` regular expressions, and the
`datetime` constructor accepts the values (year at least 1, day not past the
end of the month). -/
def strptimeYmd (s : String) : Bool :=
  match splitDash s.data with
  | [y, m, d] =>
    yearOK y && fieldOK 1 12 m && fieldOK 1 31 d && decide (1 ≤ digitsVal y) &&
      decide (digitsVal d ≤ daysInMonth (digitsVal y) (digitsVal m))
  | _ => false

/-- The dynamic value passed as `priority`: an `int` or anything else
(`isinstance(priority, int)` fails on the latter). -/
inductive PyVal where
  | int (n : Int)
  | nonint
deriving DecidableEq

/-! ## Persistence records -/

/-- A serialized task record (one value of the `tasks` JSON object).  The
`name` and `priority` fields are accessed with `data[...]` and must be
present; `due_date` and `dependencies` are read with `data.get` and may be
absent (`none`). -/
structure TaskRec where
  name : String
  priority : Int
  due_date : Option String
  dependencies : Option (List String)
deriving DecidableEq

/-- Serializer `Task.to_dict`. -/
def Task.to_dict (t : Task) : TaskRec :=
  { name := t.name, priority := t.priority, due_date := some t.due_date,
    dependencies := some t.dependencies }

/-- Deserializer `Task.from_dict`: substitute `"2100-01-01"` for a missing `due_date` and
the empty list for missing `dependencies`, then call the constructor. -/
def Task.from_dict (r : TaskRec) : Task :=
  mkTask r.name r.priority (r.due_date.getD "2100-01-01") (some (r.dependencies.getD []))

/-- The persisted JSON document: `{"tasks": {...}, "completed": [...]}`. -/
structure SaveDoc where
  tasks : List (String × TaskRec)
  completed : List String
deriving DecidableEq

/-! ## The `TaskManager` state -/

/-- State of a `TaskManager`: the insertion-ordered `task_dict`, the heap
array, the `completed` set, and the backing file (`none` = missing file,
`some none` = file with invalid JSON, `some (some doc)` = valid document). -/
structure TM where
  task_dict : List (String × Task)
  heap : List Task
  completed : List String
  file : Option (Option SaveDoc)
deriving DecidableEq

/-- Lookup `name in self.task_dict` / `self.task_dict[name]` (first entry wins; the
dict never holds duplicate keys). -/
def lookupTask (s : TM) (n : String) : Option Task :=
  (s.task_dict.find? (fun p => decide (p.1 = n))).map Prod.snd

def nameInDict (td : List (String × Task)) (n : String) : Bool :=
  (td.find? (fun p => decide (p.1 = n))).isSome

/-- Serializer `save_tasks`: serialize `task_dict` and `completed` and write the file. -/
def saveDoc (s : TM) : SaveDoc :=
  { tasks := s.task_dict.map (fun p => (p.1, p.2.to_dict)), completed := s.completed }

def saveTasks (s : TM) : TM := { s with file := some (some (saveDoc s)) }

inductive AddMsg where
  | ok | emptyName | badPriority | badDate | duplicate
deriving DecidableEq

inductive CompleteMsg where
  | ok | notFound
deriving DecidableEq

inductive LoadMsg where
  | loaded | missing | corrupt
deriving DecidableEq

/-- The successful tail of `add_task`: insert into the dict, push onto the
heap iff the dependency set is empty, persist. -/
def addFresh (s : TM) (t : Task) : TM :=
  saveTasks { s with
      task_dict := s.task_dict ++ [(t.name, t)]
      heap := if t.dependencies.isEmpty then heappush s.heap t else s.heap }

/-- Operation `TaskManager.add_task` (checks in source order: blank name, non-integer
priority, unparsable date, duplicate name). -/
def addTask (s : TM) (name : String) (priority : PyVal) (due_date : String)
    (dependencies : Option (List String)) : TM × AddMsg :=
  if isBlankName name then (s, AddMsg.emptyName)
  else
    match priority with
    | PyVal.nonint => (s, AddMsg.badPriority)
    | PyVal.int p =>
      if !(strptimeYmd due_date) then (s, AddMsg.badDate)
      else if (lookupTask s name).isSome then (s, AddMsg.duplicate)
      else (addFresh s (mkTask name p due_date dependencies), AddMsg.ok)

/-- Remove `n` from a task's dependency set when present
(`task.dependencies.remove(name)`). -/
def stripDep (n : String) (t : Task) : Task :=
  if n ∈ t.dependencies then
    { t with dependencies := t.dependencies.filter (fun d => !(decide (d = n))) }
  else t

/-- The heap effect of one iteration of the release loop in `complete_task`:
push the task iff `name` was in its dependency set and removal emptied it. -/
def completePush (n : String) (h : List Task) (p : String × Task) : List Task :=
  if n ∈ p.2.dependencies && (stripDep n p.2).dependencies.isEmpty then
    heappush h (stripDep n p.2)
  else h

/-- Operation `TaskManager.complete_task`: fail when the name is not active; otherwise
delete it from the dict, add it to `completed`, strip it from every remaining
dependency set (pushing tasks that become ready), persist.  The Python loop
updates dict values in place and pushes as it goes; here the dict update is
the `map` and the heap update the `foldl` over the same entries, in the same
order. -/
def completeTask (s : TM) (n : String) : TM × CompleteMsg :=
  if (lookupTask s n).isNone then (s, CompleteMsg.notFound)
  else
    (saveTasks { s with
        task_dict := (s.task_dict.filter (fun p => !(decide (p.1 = n)))).map
          (fun p => (p.1, stripDep n p.2))
        heap := (s.task_dict.filter (fun p => !(decide (p.1 = n)))).foldl
          (completePush n) s.heap
        completed := if n ∈ s.completed then s.completed else s.completed ++ [n] },
      CompleteMsg.ok)

/-- The lazy-purge loop of `get_next_task`: pop while the heap is non-empty
and its head names a task no longer in the dict.  `fuel ≥ l.length`
suffices, as each pop shortens the array. -/
def purgeF (td : List (String × Task)) : Nat → List Task → List Task
  | 0, l => l
  | _ + 1, [] => []
  | fuel + 1, t :: rest =>
    if nameInDict td t.name then t :: rest
    else purgeF td fuel (heapPopList (t :: rest))

/-- Operation `TaskManager.get_next_task`: purge stale heads, then peek (returning the
head without removing it), or `None` on an exhausted heap. -/
def getNextTask (s : TM) : TM × Option Task :=
  ({ s with heap := purgeF s.task_dict s.heap.length s.heap },
    (purgeF s.task_dict s.heap.length s.heap).head?)

/-- Operation `TaskManager.show_pending_tasks`: the heap entries whose names are still
in the dict, sorted ascending by the task order (`sorted` is a stable
ascending sort, matched here by insertion sort on the non-strict order). -/
def showPendingTasks (s : TM) : List Task :=
  List.insertionSort (fun a b => taskLt b a = false)
    (s.heap.filter (fun t => nameInDict s.task_dict t.name))

/-- Method `rebuild_heap`: push every dependency-free task of the dict, in order. -/
def rebuildHeap (td : List (String × Task)) : List Task :=
  td.foldl (fun h p => if p.2.dependencies.isEmpty then heappush h p.2 else h) []

/-- Operation `TaskManager.load_tasks`: a missing file leaves the state untouched (and
prints nothing); invalid JSON reports corruption and leaves the state
untouched; a valid document replaces `task_dict` and `completed`
(`set(...)` of the stored list) and rebuilds the heap. -/
def loadTasks (s : TM) : TM × LoadMsg :=
  match s.file with
  | none => (s, LoadMsg.missing)
  | some none => (s, LoadMsg.corrupt)
  | some (some doc) =>
    ({ s with
        task_dict := doc.tasks.map (fun p => (p.1, Task.from_dict p.2))
        completed := doc.completed.dedup
        heap := rebuildHeap (doc.tasks.map (fun p => (p.1, Task.from_dict p.2))) },
      LoadMsg.loaded)

def emptyTM : TM :=
  { task_dict := [], heap := [], completed := [], file := none }

/-- A fresh `TaskManager(filename)` over a backing file with content `f`. -/
def initTM (f : Option (Option SaveDoc)) : TM :=
  (loadTasks { emptyTM with file := f }).1

/-! ## Operation sequences and reachability -/

/-- The mutating engine operations a driver can invoke. -/
inductive Op where
  | add (name : String) (priority : PyVal) (due : String) (deps : Option (List String))
  | complete (name : String)
  | next
deriving DecidableEq

def step (s : TM) : Op → TM
  | Op.add n p d dd => (addTask s n p d dd).1
  | Op.complete n => (completeTask s n).1
  | Op.next => (getNextTask s).1

def run (s : TM) (ops : List Op) : TM := ops.foldl step s

/-- States a `TaskManager` starting from the empty state can be driven into. -/
def Reachable (s : TM) : Prop := ∃ ops : List Op, run emptyTM ops = s

/-! ## The state invariant

Every heap entry has an empty dependency set (tasks are pushed only when
ready and a ready task's fields never change afterwards); every active task
with an empty dependency set is in the heap; the heap array satisfies the
binary-heap shape invariant; and every dict entry's task carries the entry's
key as its name. -/

def Inv (s : TM) : Prop :=
  (∀ t ∈ s.heap, t.dependencies = ([] : List String))
  ∧ (∀ p ∈ s.task_dict, (p : String × Task).2.dependencies = [] → p.2 ∈ s.heap)
  ∧ IsHeap s.heap
  ∧ (∀ p ∈ s.task_dict, (p : String × Task).2.name = p.1)

theorem isHeap_nil : IsHeap [] := by
  intro i hi0 hilen
  exact absurd hilen (by simp)

theorem inv_emptyTM : Inv emptyTM := by
  refine ⟨?_, ?_, isHeap_nil, ?_⟩ <;> intro p hp <;> exact absurd hp (by simp [emptyTM])

/-! ### `add_task` preserves the invariant -/

theorem inv_addFresh {s : TM} {t : Task} (h : Inv s) : Inv (addFresh s t) := by
  obtain ⟨h1, h2, h3, h4⟩ := h
  unfold addFresh saveTasks
  split_ifs with hd
  · refine ⟨?_, ?_, heappush_isHeap h3 t, ?_⟩
    · intro x hx
      rcases mem_heappush.mp hx with rfl | hx2
      · exact List.isEmpty_iff.mp hd
      · exact h1 x hx2
    · intro p hp hpd
      rcases List.mem_append.mp hp with hp2 | hp2
      · exact mem_heappush.mpr (Or.inr (h2 p hp2 hpd))
      · rcases List.mem_singleton.mp hp2 with rfl
        exact mem_heappush.mpr (Or.inl rfl)
    · intro p hp
      rcases List.mem_append.mp hp with hp2 | hp2
      · exact h4 p hp2
      · rcases List.mem_singleton.mp hp2 with rfl
        rfl
  · refine ⟨h1, ?_, h3, ?_⟩
    · intro p hp hpd
      rcases List.mem_append.mp hp with hp2 | hp2
      · exact h2 p hp2 hpd
      · rcases List.mem_singleton.mp hp2 with rfl
        exact absurd (List.isEmpty_iff.mpr hpd) hd
    · intro p hp
      rcases List.mem_append.mp hp with hp2 | hp2
      · exact h4 p hp2
      · rcases List.mem_singleton.mp hp2 with rfl
        rfl

theorem inv_addTask {s : TM} (h : Inv s) (n : String) (p : PyVal) (d : String)
    (dd : Option (List String)) : Inv (addTask s n p d dd).1 := by
  rcases p with pi | _ <;> simp only [addTask]
  · split_ifs with h1 h2 h3
    · exact h
    · exact h
    · exact h
    · exact inv_addFresh h
  · split_ifs with h1
    · exact h
    · exact h

/-! ### `complete_task` preserves the invariant -/

theorem completePush_isHeap {n : String} {h0 : List Task} {p : String × Task}
    (h : IsHeap h0) : IsHeap (completePush n h0 p) := by
  unfold completePush
  split_ifs with hc
  · exact heappush_isHeap h _
  · exact h

theorem foldl_completePush_isHeap {n : String} :
    ∀ (L : List (String × Task)) (h0 : List Task), IsHeap h0 →
      IsHeap (L.foldl (completePush n) h0)
  | [], h0, h => h
  | q :: L, h0, h => by
    rw [List.foldl_cons]
    exact foldl_completePush_isHeap L _ (completePush_isHeap h)

theorem mem_completePush {n : String} {h0 : List Task} {p : String × Task} {x : Task}
    (hx : x ∈ h0) : x ∈ completePush n h0 p := by
  unfold completePush
  split_ifs with hc
  · exact mem_heappush.mpr (Or.inr hx)
  · exact hx

theorem foldl_completePush_mono {n : String} :
    ∀ (L : List (String × Task)) (h0 : List Task) (x : Task), x ∈ h0 →
      x ∈ L.foldl (completePush n) h0
  | [], _, _, hx => hx
  | q :: L, h0, x, hx => by
    rw [List.foldl_cons]
    exact foldl_completePush_mono L _ x (mem_completePush hx)

theorem foldl_completePush_elems {n : String} :
    ∀ (L : List (String × Task)) (h0 : List Task),
      (∀ x ∈ h0, x.dependencies = ([] : List String)) →
      ∀ x ∈ L.foldl (completePush n) h0, x.dependencies = ([] : List String)
  | [], _, h, x, hx => h x hx
  | q :: L, h0, h, x, hx => by
    rw [List.foldl_cons] at hx
    refine foldl_completePush_elems L _ ?_ x hx
    intro y hy
    unfold completePush at hy
    split_ifs at hy with hc
    · rcases mem_heappush.mp hy with rfl | hy2
      · simp only [Bool.and_eq_true] at hc
        exact List.isEmpty_iff.mp hc.2
      · exact h y hy2
    · exact h y hy

theorem foldl_completePush_pushed {n : String} :
    ∀ (L : List (String × Task)) (h0 : List Task) (p : String × Task), p ∈ L →
      n ∈ p.2.dependencies → (stripDep n p.2).dependencies = [] →
      stripDep n p.2 ∈ L.foldl (completePush n) h0
  | [], _, _, hp, _, _ => absurd hp (by simp)
  | q :: L, h0, p, hp, hmem, hdep => by
    rw [List.foldl_cons]
    rcases List.mem_cons.mp hp with rfl | hp2
    · apply foldl_completePush_mono
      unfold completePush
      rw [if_pos]
      · exact mem_heappush.mpr (Or.inl rfl)
      · simp only [Bool.and_eq_true]
        exact ⟨by simpa using hmem, by simp [hdep]⟩
    · exact foldl_completePush_pushed L _ p hp2 hmem hdep

theorem stripDep_name (n : String) (t : Task) : (stripDep n t).name = t.name := by
  unfold stripDep
  split_ifs <;> rfl

/-- The invariant holds for the successful-completion state, whatever the
`completed` set and file become. -/
theorem inv_completeCore {s : TM} (h : Inv s) (n : String) (comp : List String)
    (f : Option (Option SaveDoc)) :
    Inv { task_dict := (s.task_dict.filter (fun p => !(decide (p.1 = n)))).map
            (fun p => (p.1, stripDep n p.2))
          heap := (s.task_dict.filter (fun p => !(decide (p.1 = n)))).foldl
            (completePush n) s.heap
          completed := comp
          file := f } := by
  obtain ⟨h1, h2, h3, h4⟩ := h
  refine ⟨?_, ?_, ?_, ?_⟩
  · exact foldl_completePush_elems _ _ h1
  · intro p hp hpd
    rcases List.mem_map.mp hp with ⟨q, hq, rfl⟩
    have hqd : q ∈ s.task_dict := List.mem_of_mem_filter hq
    by_cases hmem : n ∈ q.2.dependencies
    · exact foldl_completePush_pushed _ _ q hq hmem hpd
    · have hst : stripDep n q.2 = q.2 := by
        unfold stripDep
        rw [if_neg hmem]
      have hpd2 : q.2.dependencies = [] := by
        rw [← hst]
        exact hpd
      show stripDep n q.2 ∈ _
      rw [hst]
      exact foldl_completePush_mono _ _ _ (h2 q hqd hpd2)
  · exact foldl_completePush_isHeap _ _ h3
  · intro p hp
    rcases List.mem_map.mp hp with ⟨q, hq, rfl⟩
    show (stripDep n q.2).name = q.1
    rw [stripDep_name]
    exact h4 q (List.mem_of_mem_filter hq)

theorem inv_completeTask {s : TM} (h : Inv s) (n : String) : Inv (completeTask s n).1 := by
  unfold completeTask
  split_ifs with hn hcomp
  · exact h
  · exact inv_completeCore h n _ _
  · exact inv_completeCore h n _ _

/-! ### `get_next_task` preserves the invariant -/

theorem purgeF_isHeap {td : List (String × Task)} :
    ∀ (fuel : Nat) (l : List Task), IsHeap l → IsHeap (purgeF td fuel l)
  | 0, l, h => h
  | fuel + 1, [], _ => isHeap_nil
  | fuel + 1, t :: rest, h => by
    unfold purgeF
    split_ifs with hc
    · exact h
    · exact purgeF_isHeap fuel _ (heapPopList_isHeap h)

theorem purgeF_subset {td : List (String × Task)} :
    ∀ (fuel : Nat) (l : List Task) (x : Task), x ∈ purgeF td fuel l → x ∈ l
  | 0, l, x, hx => hx
  | fuel + 1, [], x, hx => hx
  | fuel + 1, t :: rest, x, hx => by
    unfold purgeF at hx
    split_ifs at hx with hc
    · exact hx
    · exact mem_of_mem_heapPopList (by simp)
        (purgeF_subset fuel (heapPopList (t :: rest)) x hx)

theorem purgeF_mem_alive {td : List (String × Task)} :
    ∀ (fuel : Nat) (l : List Task) (x : Task), x ∈ l → nameInDict td x.name = true →
      x ∈ purgeF td fuel l
  | 0, _, _, hx, _ => hx
  | fuel + 1, [], x, hx, _ => hx
  | fuel + 1, t :: rest, x, hx, halive => by
    unfold purgeF
    split_ifs with hc
    · exact hx
    · apply purgeF_mem_alive fuel _ x _ halive
      apply mem_heapPopList_of_ne (by simp) hx
      intro hxt
      rw [hGet_cons_zero] at hxt
      rw [hxt] at halive
      exact absurd halive (by simp [hc])

/-- After purging with enough fuel, the heap is empty or headed by a live
entry. -/
theorem purgeF_post {td : List (String × Task)} :
    ∀ (fuel : Nat) (l : List Task), l.length ≤ fuel →
      purgeF td fuel l = [] ∨
        ∃ t rest, purgeF td fuel l = t :: rest ∧ nameInDict td t.name = true
  | 0, l, hf => by
    have : l = [] := List.eq_nil_of_length_eq_zero (by omega)
    subst this
    exact Or.inl rfl
  | fuel + 1, [], _ => Or.inl rfl
  | fuel + 1, t :: rest, hf => by
    unfold purgeF
    split_ifs with hc
    · exact Or.inr ⟨t, rest, rfl, hc⟩
    · apply purgeF_post fuel _
      rw [length_heapPopList (by simp)]
      simp only [List.length_cons] at hf ⊢
      omega

theorem nameInDict_of_mem {td : List (String × Task)} {p : String × Task}
    (hp : p ∈ td) : nameInDict td p.1 = true := by
  unfold nameInDict
  rw [List.find?_isSome]
  exact ⟨p, hp, by simp⟩

theorem inv_getNextTask {s : TM} (h : Inv s) : Inv (getNextTask s).1 := by
  obtain ⟨h1, h2, h3, h4⟩ := h
  unfold getNextTask
  refine ⟨?_, ?_, purgeF_isHeap _ _ h3, h4⟩
  · intro t ht
    exact h1 t (purgeF_subset _ _ t ht)
  · intro p hp hpd
    apply purgeF_mem_alive _ _ _ (h2 p hp hpd)
    rw [h4 p hp]
    exact nameInDict_of_mem hp

/-! ### Reachable states satisfy the invariant -/

theorem inv_step {s : TM} (h : Inv s) (op : Op) : Inv (step s op) := by
  rcases op with ⟨n, p, d, dd⟩ | n | _
  · exact inv_addTask h n p d dd
  · exact inv_completeTask h n
  · exact inv_getNextTask h

theorem inv_run {s : TM} (h : Inv s) : ∀ ops : List Op, Inv (run s ops)
  | [] => h
  | op :: ops => by
    rw [run, List.foldl_cons]
    exact inv_run (inv_step h op) ops

theorem reachable_inv {s : TM} (h : Reachable s) : Inv s := by
  obtain ⟨ops, hops⟩ := h
  rw [← hops]
  exact inv_run inv_emptyTM ops

theorem run_append (s : TM) (l1 l2 : List Op) : run s (l1 ++ l2) = run (run s l1) l2 := by
  unfold run
  rw [List.foldl_append]

theorem reachable_run {s : TM} (h : Reachable s) (ops : List Op) : Reachable (run s ops) := by
  obtain ⟨ops0, hops0⟩ := h
  exact ⟨ops0 ++ ops, by rw [run_append, hops0]⟩

/-! ## Facts about `lookupTask` -/

theorem lookupTask_mem {s : TM} {n : String} {t : Task} (h : lookupTask s n = some t) :
    (n, t) ∈ s.task_dict := by
  unfold lookupTask at h
  rcases hf : s.task_dict.find? (fun p => decide (p.1 = n)) with _ | q
  · rw [hf] at h
    exact absurd h (by simp)
  · rw [hf] at h
    have hq1 := List.find?_some hf
    simp only [decide_eq_true_eq] at hq1
    have hq2 : q.2 = t := by simpa using h
    have := List.mem_of_find?_eq_some hf
    rw [← hq1, ← hq2]
    simpa using this

theorem lookupTask_alive {s : TM} {n : String} {t : Task} (h : lookupTask s n = some t) :
    nameInDict s.task_dict n = true := by
  unfold lookupTask at h
  unfold nameInDict
  rcases hf : s.task_dict.find? (fun p => decide (p.1 = n)) with _ | q
  · rw [hf] at h
    exact absurd h (by simp)
  · rw [hf]
    rfl

theorem head_mem_of_head?_eq_some {l : List Task} {t : Task} (h : l.head? = some t) :
    t ∈ l ∧ hGet l 0 = t := by
  rcases l with _ | ⟨x, rest⟩
  · exact absurd h (by simp)
  · have : x = t := by simpa using h
    subst this
    exact ⟨List.mem_cons_self x rest, rfl⟩

/-! ## C1: priority ordering of `get_next_task` -/

/-- C1.  In any reachable state in which tasks `a` and `b` are both active
under their own names with empty dependency sets, and `a` precedes `b` in the
task order (either `a.priority < b.priority`, or equal priorities and
`a.due_date < b.due_date` — `taskLt a b`), `get_next_task` does not return
`b`, and it does return some task; hence `a` is selected before `b`
regardless of the order in which they were added. -/
theorem C1_ordering (s : TM) (hs : Reachable s) (a b : Task)
    (ha : lookupTask s a.name = some a) (hb : lookupTask s b.name = some b)
    (ha0 : a.dependencies = []) (hb0 : b.dependencies = [])
    (hlt : taskLt a b = true) :
    (getNextTask s).2 ≠ some b ∧ (getNextTask s).2 ≠ none := by
  obtain ⟨h1, h2, h3, h4⟩ := reachable_inv hs
  have hamem : (a.name, a) ∈ s.task_dict := lookupTask_mem ha
  have haheap : a ∈ s.heap := h2 (a.name, a) hamem ha0
  have hapurge : a ∈ purgeF s.task_dict s.heap.length s.heap :=
    purgeF_mem_alive _ _ a haheap (lookupTask_alive ha)
  have hisheap : IsHeap (purgeF s.task_dict s.heap.length s.heap) :=
    purgeF_isHeap _ _ h3
  simp only [getNextTask]
  constructor
  · intro hcontra
    obtain ⟨hbmem, hbroot⟩ := head_mem_of_head?_eq_some hcontra
    have hmin := isHeap_mem_min hisheap hapurge
    rw [hbroot] at hmin
    rw [hmin] at hlt
    exact absurd hlt (by simp)
  · intro hcontra
    have : purgeF s.task_dict s.heap.length s.heap = [] := by
      rcases hh : purgeF s.task_dict s.heap.length s.heap with _ | ⟨x, rest⟩
      · rfl
      · rw [hh] at hcontra
        exact absurd hcontra (by simp)
    rw [this] at hapurge
    exact absurd hapurge (by simp)

/-- Witness for C1 at the spec's own scenario: after adding `A` (priority 2)
then `B` (priority 1), `get_next_task` does not yield `A` and does yield a
task. -/
theorem C1_ordering_witness :
    (getNextTask (run emptyTM [Op.add "A" (PyVal.int 2) "2025-01-01" none,
        Op.add "B" (PyVal.int 1) "2025-06-01" none])).2 ≠
      some { name := "A", priority := 2, due_date := "2025-01-01", dependencies := [] } ∧
    (getNextTask (run emptyTM [Op.add "A" (PyVal.int 2) "2025-01-01" none,
        Op.add "B" (PyVal.int 1) "2025-06-01" none])).2 ≠ none :=
  C1_ordering _ ⟨_, rfl⟩
    { name := "B", priority := 1, due_date := "2025-06-01", dependencies := [] }
    { name := "A", priority := 2, due_date := "2025-01-01", dependencies := [] }
    (by decide) (by decide) (by decide) (by decide) (by decide)

/-! ## C9: `get_next_task` is idempotent -/

theorem purgeF_stable {td : List (String × Task)} :
    ∀ (fuel : Nat) (l : List Task),
      (l = [] ∨ ∃ t rest, l = t :: rest ∧ nameInDict td t.name = true) →
      purgeF td fuel l = l
  | 0, l, _ => rfl
  | fuel + 1, l, h => by
    rcases h with rfl | ⟨t, rest, rfl, halive⟩
    · rfl
    · unfold purgeF
      rw [if_pos halive]

/-- C9.  Calling `get_next_task` twice in a row with no mutating operation in
between returns the same state and the same result both times: the purge is
idempotent and peeking does not remove the returned task. -/
theorem C9_idempotent (s : TM) : getNextTask (getNextTask s).1 = getNextTask s := by
  unfold getNextTask
  have hpost := @purgeF_post s.task_dict s.heap.length s.heap (le_refl _)
  have hst := @purgeF_stable s.task_dict
    (purgeF s.task_dict s.heap.length s.heap).length _ hpost
  rw [hst]

/-! ## C3: dependency gating -/

/-- C3.  In any reachable state, a task with a non-empty dependency set is
never the value returned by `get_next_task` and is never listed by
`show_pending_tasks`; tasks become visible to the scheduler only once every
dependency has been removed by completions. -/
theorem C3_gating (s : TM) (hs : Reachable s) (t : Task)
    (hdep : t.dependencies ≠ []) :
    (getNextTask s).2 ≠ some t ∧ t ∉ showPendingTasks s := by
  obtain ⟨h1, _, _, _⟩ := reachable_inv hs
  simp only [getNextTask]
  constructor
  · intro hcontra
    obtain ⟨hmem, _⟩ := head_mem_of_head?_eq_some hcontra
    exact hdep (h1 t (purgeF_subset _ _ t hmem))
  · intro hcontra
    have hmem : t ∈ s.heap.filter (fun x => nameInDict s.task_dict x.name) :=
      (List.perm_insertionSort _ _).mem_iff.mp hcontra
    exact hdep (h1 t (List.mem_of_mem_filter hmem))

/-- Witness for C3: task `B` depends on `A`, so `get_next_task` does not
return it and `show_pending_tasks` does not list it. -/
theorem C3_gating_witness :
    (getNextTask (run emptyTM [Op.add "A" (PyVal.int 1) "2025-01-01" none,
        Op.add "B" (PyVal.int 1) "2025-01-01" (some ["A"])])).2 ≠
      some { name := "B", priority := 1, due_date := "2025-01-01", dependencies := ["A"] } ∧
    { name := "B", priority := 1, due_date := "2025-01-01",
        dependencies := ["A"] : Task } ∉
      showPendingTasks (run emptyTM [Op.add "A" (PyVal.int 1) "2025-01-01" none,
        Op.add "B" (PyVal.int 1) "2025-01-01" (some ["A"])]) :=
  C3_gating _ ⟨_, rfl⟩ _ (by decide)

/-! ## C2: release propagation -/

theorem stripDep_not_mem (n : String) (t : Task) : n ∉ (stripDep n t).dependencies := by
  unfold stripDep
  split_ifs with hmem
  · intro hcontra
    have := (List.mem_filter.mp hcontra).2
    simp at this
  · exact hmem

theorem head?_isSome_of_mem {l : List Task} {t : Task} (h : t ∈ l) :
    l.head?.isSome = true := by
  rcases l with _ | ⟨x, rest⟩
  · exact absurd h (by simp)
  · rfl

/-- C2.  When `complete_task X` succeeds, `X` is removed from the dependency
set of every remaining active task in the same call; and every old active
task other than `X` whose name keys its entry, whose dependency set contained
`X` and becomes empty on removal, is pushed onto the heap in the same call,
appears in the immediately following `show_pending_tasks`, and makes the
immediately following `get_next_task` return a task (the key-names-task
hypothesis `p.2.name = p.1` holds in every reachable state). -/
theorem C2_release (s : TM) (X : String) (hx : (lookupTask s X).isSome = true) :
    (∀ p ∈ (completeTask s X).1.task_dict, X ∉ (p : String × Task).2.dependencies)
    ∧ (∀ p ∈ s.task_dict, (p : String × Task).2.name = p.1 → ¬ p.1 = X →
        X ∈ p.2.dependencies → (stripDep X p.2).dependencies = [] →
        stripDep X p.2 ∈ (completeTask s X).1.heap
        ∧ stripDep X p.2 ∈ showPendingTasks (completeTask s X).1
        ∧ ((getNextTask (completeTask s X).1).2).isSome = true) := by
  have hxn : ¬ ((lookupTask s X).isNone = true) := by
    rcases hh : lookupTask s X with _ | t
    · rw [hh] at hx
      exact absurd hx (by simp)
    · simp
  have hstate : (completeTask s X).1 = saveTasks { s with
      task_dict := (s.task_dict.filter (fun p => !(decide (p.1 = X)))).map
        (fun p => (p.1, stripDep X p.2))
      heap := (s.task_dict.filter (fun p => !(decide (p.1 = X)))).foldl
        (completePush X) s.heap
      completed := if X ∈ s.completed then s.completed else s.completed ++ [X] } := by
    unfold completeTask
    rw [if_neg hxn]
  constructor
  · intro p hp
    rw [hstate] at hp
    rcases List.mem_map.mp hp with ⟨q, _, rfl⟩
    exact stripDep_not_mem X q.2
  · intro p hp hname hpx hmem hstrip
    have hpfil : p ∈ s.task_dict.filter (fun p => !(decide (p.1 = X))) :=
      List.mem_filter.mpr ⟨hp, by simp [hpx]⟩
    have hheap : stripDep X p.2 ∈ (completeTask s X).1.heap := by
      rw [hstate]
      exact foldl_completePush_pushed _ _ p hpfil hmem hstrip
    have halive : nameInDict (completeTask s X).1.task_dict (stripDep X p.2).name = true := by
      rw [stripDep_name, hname, hstate]
      exact nameInDict_of_mem (p := (p.1, stripDep X p.2))
        (List.mem_map.mpr ⟨p, hpfil, rfl⟩)
    refine ⟨hheap, ?_, ?_⟩
    · unfold showPendingTasks
      refine (List.perm_insertionSort _ _).mem_iff.mpr ?_
      exact List.mem_filter.mpr ⟨hheap, halive⟩
    · have hpurge : stripDep X p.2 ∈ purgeF (completeTask s X).1.task_dict
          ((completeTask s X).1.heap).length (completeTask s X).1.heap :=
        purgeF_mem_alive _ _ _ hheap halive
      exact head?_isSome_of_mem hpurge

/-- Witness for C2 at the spec's scenario: completing `A` releases `B`
(whose only dependency was `A`) into the ready queue, the pending list and
the next-task answer, with no other operation in between. -/
theorem C2_release_witness :
    stripDep "A"
        { name := "B", priority := 1, due_date := "2025-01-01", dependencies := ["A"] } ∈
      showPendingTasks (completeTask (run emptyTM
        [Op.add "A" (PyVal.int 1) "2025-01-01" none,
         Op.add "B" (PyVal.int 1) "2025-01-01" (some ["A"])]) "A").1 ∧
    ((getNextTask (completeTask (run emptyTM
        [Op.add "A" (PyVal.int 1) "2025-01-01" none,
         Op.add "B" (PyVal.int 1) "2025-01-01" (some ["A"])]) "A").1).2).isSome = true := by
  have h := (C2_release (run emptyTM
      [Op.add "A" (PyVal.int 1) "2025-01-01" none,
       Op.add "B" (PyVal.int 1) "2025-01-01" (some ["A"])]) "A" (by decide)).2
    ("B", { name := "B", priority := 1, due_date := "2025-01-01", dependencies := ["A"] })
    (by decide) (by decide) (by decide) (by decide) (by decide)
  exact ⟨h.2.1, h.2.2⟩

/-! ## C10: an unsatisfiable dependency is never released -/

/-- No operation in the sequence is a successful `complete_task D`: whenever
a `complete D` is issued, `D` is not in the Active Set at that moment (the
call fails with not-found). -/
def noCompleteOf (D : String) : TM → List Op → Bool
  | _, [] => true
  | s, op :: ops =>
    (match op with
     | Op.complete m => if m = D then (lookupTask s D).isNone else true
     | _ => true) && noCompleteOf D (step s op) ops

/-- No operation in the sequence is an `add_task` for name `n`. -/
def noAddOf (n : String) (ops : List Op) : Bool :=
  ops.all (fun op =>
    match op with
    | Op.add m _ _ _ => !(decide (m = n))
    | _ => true)

theorem lookupTask_addTask_ne {s : TM} {m : String} {pv : PyVal} {d : String}
    {dd : Option (List String)} {n : String} (hne : ¬ m = n) :
    lookupTask (addTask s m pv d dd).1 n = lookupTask s n := by
  rcases pv with pi | _ <;> simp only [addTask]
  · split_ifs with h1 h2 h3
    · rfl
    · rfl
    · rfl
    · show lookupTask (addFresh s (mkTask m pi d dd)) n = _
      unfold addFresh saveTasks lookupTask
      simp only
      rw [List.find?_append]
      have hsing : List.find? (fun p => decide ((p : String × Task).1 = n))
          [((mkTask m pi d dd).name, mkTask m pi d dd)] = none := by
        simp [mkTask, hne]
      rw [hsing, Option.or_none]
  · split_ifs with h1
    · rfl
    · rfl

theorem find?_map_strip {td : List (String × Task)} {n X : String} :
    List.find? (fun p => decide (p.1 = n)) (td.map (fun p => (p.1, stripDep X p.2)))
      = (List.find? (fun p => decide (p.1 = n)) td).map (fun p => (p.1, stripDep X p.2)) := by
  induction td with
  | nil => rfl
  | cons q td ih =>
    simp only [List.map_cons]
    by_cases hq : q.1 = n
    · rw [List.find?_cons_of_pos _ (by simpa using hq),
        List.find?_cons_of_pos _ (by simpa using hq)]
      rfl
    · rw [List.find?_cons_of_neg _ (by simpa using hq),
        List.find?_cons_of_neg _ (by simpa using hq)]
      exact ih

theorem find?_filter_ne {td : List (String × Task)} {n X : String} (hne : ¬ n = X) :
    List.find? (fun p => decide (p.1 = n)) (td.filter (fun p => !(decide (p.1 = X))))
      = List.find? (fun p => decide (p.1 = n)) td := by
  induction td with
  | nil => rfl
  | cons q td ih =>
    by_cases hqX : q.1 = X
    · have hqn : ¬ q.1 = n := by
        rw [hqX]
        exact fun h => hne h.symm
      rw [List.filter_cons_of_neg (by simp [hqX]),
        List.find?_cons_of_neg _ (by simpa using hqn)]
      exact ih
    · rw [List.filter_cons_of_pos (by simp [hqX])]
      by_cases hqn : q.1 = n
      · rw [List.find?_cons_of_pos _ (by simpa using hqn),
          List.find?_cons_of_pos _ (by simpa using hqn)]
      · rw [List.find?_cons_of_neg _ (by simpa using hqn),
          List.find?_cons_of_neg _ (by simpa using hqn)]
        exact ih

theorem find?_filter_self {td : List (String × Task)} {X : String} :
    List.find? (fun p => decide (p.1 = X))
      (td.filter (fun p => !(decide (p.1 = X)))) = none := by
  rw [List.find?_eq_none]
  intro p hp
  have h2 := (List.mem_filter.mp hp).2
  simp only [Bool.not_eq_eq_eq_not, Bool.not_true, decide_eq_false_iff_not] at h2
  simpa using h2

theorem lookupTask_completeTask_ne {s : TM} {m n : String}
    (hm : ¬ (lookupTask s m).isNone = true) (hne : ¬ n = m) :
    lookupTask (completeTask s m).1 n = (lookupTask s n).map (stripDep m) := by
  unfold completeTask
  rw [if_neg hm]
  show lookupTask (saveTasks _) n = _
  unfold saveTasks lookupTask
  simp only
  rw [find?_map_strip, find?_filter_ne hne]
  rcases hf : List.find? (fun p => decide (p.1 = n)) s.task_dict with _ | q
  · rw [hf]
    rfl
  · rw [hf]
    rfl

theorem lookupTask_completeTask_self {s : TM} {m : String}
    (hm : ¬ (lookupTask s m).isNone = true) :
    lookupTask (completeTask s m).1 m = none := by
  unfold completeTask
  rw [if_neg hm]
  show lookupTask (saveTasks _) m = _
  unfold saveTasks lookupTask
  simp only
  rw [find?_map_strip, find?_filter_self]
  rfl

theorem mem_stripDep_of_ne {m D : String} {u : Task} (hne : ¬ D = m)
    (h : D ∈ u.dependencies) : D ∈ (stripDep m u).dependencies := by
  unfold stripDep
  split_ifs with hmem
  · exact List.mem_filter.mpr ⟨h, by simpa using hne⟩
  · exact h

/-- Along any run that never successfully completes `D` and never adds a task
named `n`, the active task under name `n` (while one exists) keeps `D` in its
dependency set. -/
theorem dep_persist_run {n D : String} :
    ∀ (ops : List Op) (s : TM),
      (∀ t, lookupTask s n = some t → D ∈ t.dependencies) →
      noCompleteOf D s ops = true → noAddOf n ops = true →
      ∀ t, lookupTask (run s ops) n = some t → D ∈ t.dependencies
  | [], _, hQ, _, _ => hQ
  | op :: ops, s, hQ, hnc, hna => by
    unfold noCompleteOf at hnc
    rw [Bool.and_eq_true] at hnc
    unfold noAddOf at hna
    rw [List.all_cons, Bool.and_eq_true] at hna
    rw [run, List.foldl_cons]
    refine dep_persist_run ops (step s op) ?_ hnc.2 hna.2
    intro t ht
    rcases op with ⟨m, pv, dte, dl⟩ | m | _
    · have hmn : ¬ m = n := by simpa using hna.1
      rw [show step s (Op.add m pv dte dl) = (addTask s m pv dte dl).1 from rfl,
        lookupTask_addTask_ne hmn] at ht
      exact hQ t ht
    · by_cases hfail : (lookupTask s m).isNone = true
      · have hsame : (completeTask s m).1 = s := by
          unfold completeTask
          rw [if_pos hfail]
        rw [show step s (Op.complete m) = (completeTask s m).1 from rfl, hsame] at ht
        exact hQ t ht
      · have hmD : ¬ m = D := by
          intro heq
          apply hfail
          have h1 : (if m = D then (lookupTask s D).isNone else true) = true := hnc.1
          rw [if_pos heq] at h1
          rw [heq]
          exact h1
        by_cases hnm : n = m
        · rw [show step s (Op.complete m) = (completeTask s m).1 from rfl, hnm,
            lookupTask_completeTask_self hfail] at ht
          exact absurd ht (by simp)
        · rw [show step s (Op.complete m) = (completeTask s m).1 from rfl,
            lookupTask_completeTask_ne hfail hnm] at ht
          rcases hu : lookupTask s n with _ | u
          · rw [hu] at ht
            exact absurd ht (by simp)
          · rw [hu] at ht
            have ht2 : stripDep m u = t := by simpa using ht
            rw [← ht2]
            exact mem_stripDep_of_ne (fun hh => hmD hh.symm) (hQ u hu)
    · rw [show step s Op.next = (getNextTask s).1 from rfl] at ht
      exact hQ t ht

/-- C10.  Starting from a reachable state where the active task `t` under
name `n` has `D` in its dependency set, any subsequent operation sequence
that never successfully completes `D` (for example because `D` is already
completed, or is never added) and never adds a task named `n` leaves `D` in
the dependency set of the active task under `n` (while it exists); moreover
any task value whose dependency set contains `D` is never in the ready
queue and is never returned by `get_next_task` (this applies to every prefix
of the sequence, as each prefix also satisfies the hypotheses). -/
theorem C10_unreleasable (s : TM) (hs : Reachable s) (n D : String) (t : Task)
    (hlook : lookupTask s n = some t) (hD : D ∈ t.dependencies)
    (ops : List Op) (hops : noCompleteOf D s ops = true) (hadd : noAddOf n ops = true) :
    (∀ t2, lookupTask (run s ops) n = some t2 → D ∈ t2.dependencies)
    ∧ (∀ t2, D ∈ t2.dependencies →
        t2 ∉ (run s ops).heap ∧ (getNextTask (run s ops)).2 ≠ some t2) := by
  constructor
  · refine dep_persist_run ops s ?_ hops hadd
    intro t0 ht0
    rw [hlook] at ht0
    have : t = t0 := by simpa using ht0
    rw [← this]
    exact hD
  · intro t2 ht2
    obtain ⟨h1, _, _, _⟩ := reachable_inv (reachable_run hs ops)
    constructor
    · intro hmem
      rw [h1 t2 hmem] at ht2
      exact absurd ht2 (by simp)
    · intro hcontra
      rw [show (getNextTask (run s ops)).2 =
          (purgeF (run s ops).task_dict ((run s ops).heap).length (run s ops).heap).head?
          from rfl] at hcontra
      obtain ⟨hmem, _⟩ := head_mem_of_head?_eq_some hcontra
      have hmem2 := purgeF_subset _ _ t2 hmem
      rw [h1 t2 hmem2] at ht2
      exact absurd ht2 (by simp)

/-- Witness for C10: task `B` depends on the never-active `A`; after a peek
and a failing `complete A`, the task value still holds the dependency, is not
in the heap and is not returned. -/
theorem C10_unreleasable_witness :
    ({ name := "B", priority := 1, due_date := "2025-01-01", dependencies := ["A"] : Task } ∉
      (run (run emptyTM [Op.add "B" (PyVal.int 1) "2025-01-01" (some ["A"])])
        [Op.next, Op.complete "A"]).heap) ∧
    (getNextTask (run (run emptyTM [Op.add "B" (PyVal.int 1) "2025-01-01" (some ["A"])])
        [Op.next, Op.complete "A"])).2 ≠
      some { name := "B", priority := 1, due_date := "2025-01-01", dependencies := ["A"] } := by
  have h := (C10_unreleasable (run emptyTM [Op.add "B" (PyVal.int 1) "2025-01-01" (some ["A"])])
      ⟨_, rfl⟩ "B" "A"
      { name := "B", priority := 1, due_date := "2025-01-01", dependencies := ["A"] }
      (by decide) (by decide) [Op.next, Op.complete "A"] (by decide) (by decide)).2
    { name := "B", priority := 1, due_date := "2025-01-01", dependencies := ["A"] }
    (by decide)
  exact ⟨h.1, h.2⟩

/-! ## C5: active/completed disjointness

The claim as stated is false on the code: `add_task` checks only the Active
Set for duplicates, so a name that was completed can be re-added and is then
active and completed at the same time. -/

/-- Counterexample to C5 as stated: from the empty state, add `A`, complete
`A`, then add `A` again — the resulting reachable state has `A` both as a
key of the Active Set and as a member of the Completed Set. -/
theorem C5_counterexample :
    "A" ∈ ((run emptyTM [Op.add "A" (PyVal.int 1) "2025-01-01" none, Op.complete "A",
        Op.add "A" (PyVal.int 2) "2025-06-01" none]).task_dict.map Prod.fst) ∧
    "A" ∈ (run emptyTM [Op.add "A" (PyVal.int 1) "2025-01-01" none, Op.complete "A",
        Op.add "A" (PyVal.int 2) "2025-06-01" none]).completed := by
  decide

/-- No `add` in the sequence reuses a name that is in the Completed Set at
the moment of the call. -/
def noReuse : TM → List Op → Bool
  | _, [] => true
  | s, op :: ops =>
    (match op with
     | Op.add m _ _ _ => !(decide (m ∈ s.completed))
     | _ => true) && noReuse (step s op) ops

theorem disj_addFresh {s : TM} {t : Task}
    (hD : ∀ k ∈ s.task_dict.map Prod.fst, k ∉ s.completed)
    (hm : t.name ∉ s.completed) :
    ∀ k ∈ (addFresh s t).task_dict.map Prod.fst, k ∉ (addFresh s t).completed := by
  intro k hk
  unfold addFresh saveTasks at hk ⊢
  simp only [List.map_append, List.mem_append, List.map_cons, List.map_nil,
    List.mem_singleton] at hk
  rcases hk with hk | hk
  · exact hD k hk
  · rw [hk]
    exact hm

theorem disj_completeTask {s : TM} {m : String}
    (hD : ∀ k ∈ s.task_dict.map Prod.fst, k ∉ s.completed) :
    ∀ k ∈ (completeTask s m).1.task_dict.map Prod.fst,
      k ∉ (completeTask s m).1.completed := by
  unfold completeTask
  split_ifs with hn hcomp
  · exact hD
  · intro k hk
    rcases List.mem_map.mp hk with ⟨p2, hp2, rfl⟩
    rcases List.mem_map.mp hp2 with ⟨q, hq, rfl⟩
    have hqmem := List.mem_of_mem_filter hq
    show q.1 ∉ s.completed
    exact hD q.1 (List.mem_map.mpr ⟨q, hqmem, rfl⟩)
  · intro k hk
    rcases List.mem_map.mp hk with ⟨p2, hp2, rfl⟩
    rcases List.mem_map.mp hp2 with ⟨q, hq, rfl⟩
    have hqmem := List.mem_of_mem_filter hq
    have hqne := (List.mem_filter.mp hq).2
    simp only [Bool.not_eq_eq_eq_not, Bool.not_true, decide_eq_false_iff_not] at hqne
    show q.1 ∉ s.completed ++ [m]
    intro hcon
    rcases List.mem_append.mp hcon with hc | hc
    · exact hD q.1 (List.mem_map.mpr ⟨q, hqmem, rfl⟩) hc
    · exact hqne (List.mem_singleton.mp hc)

theorem noReuse_disjoint_run :
    ∀ (ops : List Op) (s : TM),
      (∀ k ∈ s.task_dict.map Prod.fst, k ∉ s.completed) → noReuse s ops = true →
      ∀ k ∈ (run s ops).task_dict.map Prod.fst, k ∉ (run s ops).completed
  | [], _, hD, _ => hD
  | op :: ops, s, hD, hR => by
    unfold noReuse at hR
    rw [Bool.and_eq_true] at hR
    rw [run, List.foldl_cons]
    refine noReuse_disjoint_run ops (step s op) ?_ hR.2
    rcases op with ⟨m, pv, dte, dl⟩ | m | _
    · have hm : m ∉ s.completed := by simpa using hR.1
      show ∀ k ∈ (addTask s m pv dte dl).1.task_dict.map Prod.fst,
        k ∉ (addTask s m pv dte dl).1.completed
      rcases pv with pi | _ <;> simp only [addTask]
      · split_ifs with h1 h2 h3
        · exact hD
        · exact hD
        · exact hD
        · exact disj_addFresh hD hm
      · split_ifs with h1
        · exact hD
        · exact hD
    · exact disj_completeTask hD
    · exact hD

/-- C5, amended.  The claim as stated fails (see the counterexample: a
completed name can be re-added because `add_task` checks only the Active
Set).  Amended by the minimal extra hypothesis the counterexample forces:
if no `add_task` in the sequence reuses a name that is already in the
Completed Set at that moment, then in the state reached from the empty state
no name is simultaneously a key of the Active Set and a member of the
Completed Set. -/
theorem C5_no_reuse_disjoint (ops : List Op) (h : noReuse emptyTM ops = true) :
    ∀ k ∈ (run emptyTM ops).task_dict.map Prod.fst, k ∉ (run emptyTM ops).completed :=
  noReuse_disjoint_run ops emptyTM
    (fun k hk => absurd hk (by simp [emptyTM])) h

/-- Witness for the amended C5: adding `A`, completing it, then adding a
fresh name `B` never puts `B` in both sets. -/
theorem C5_no_reuse_disjoint_witness :
    ("B" ∈ (run emptyTM [Op.add "A" (PyVal.int 1) "2025-01-01" none, Op.complete "A",
        Op.add "B" (PyVal.int 1) "2025-01-01" none]).task_dict.map Prod.fst) ∧
    "B" ∉ (run emptyTM [Op.add "A" (PyVal.int 1) "2025-01-01" none, Op.complete "A",
        Op.add "B" (PyVal.int 1) "2025-01-01" none]).completed :=
  ⟨by decide,
   C5_no_reuse_disjoint [Op.add "A" (PyVal.int 1) "2025-01-01" none, Op.complete "A",
      Op.add "B" (PyVal.int 1) "2025-01-01" none] (by decide) "B" (by decide)⟩

/-! ## C4: persistence round-trip -/

/-- Structural equality of tasks in the claim's sense: same name, priority
and due date, and the same dependency set (set equality, as the Python sets
are serialized as lists in unspecified order). -/
def TaskEquiv (a b : Task) : Prop :=
  a.name = b.name ∧ a.priority = b.priority ∧ a.due_date = b.due_date ∧
    ∀ x, x ∈ a.dependencies ↔ x ∈ b.dependencies

/-- C4.  For every state, loading the document produced by `save_tasks`
succeeds and yields an Active Set with the same names in the same order,
with each task structurally equal to the original (same name, priority, due
date, dependency set), and a Completed Set with the same members. -/
theorem C4_roundtrip (s : TM) :
    ((loadTasks { s with file := some (some (saveDoc s)) }).2 = LoadMsg.loaded)
    ∧ ((loadTasks { s with file := some (some (saveDoc s)) }).1.task_dict.map Prod.fst
        = s.task_dict.map Prod.fst)
    ∧ List.Forall₂
        (fun p q => (p : String × Task).1 = (q : String × Task).1 ∧ TaskEquiv p.2 q.2)
        (loadTasks { s with file := some (some (saveDoc s)) }).1.task_dict s.task_dict
    ∧ (∀ c, c ∈ (loadTasks { s with file := some (some (saveDoc s)) }).1.completed ↔
        c ∈ s.completed) := by
  refine ⟨rfl, ?_, ?_, ?_⟩
  · show ((s.task_dict.map (fun p => (p.1, Task.to_dict p.2))).map
        (fun p => (p.1, Task.from_dict p.2))).map Prod.fst = s.task_dict.map Prod.fst
    rw [List.map_map, List.map_map]
    apply List.map_congr_left
    intro a _
    rfl
  · show List.Forall₂ _ ((s.task_dict.map (fun p => (p.1, Task.to_dict p.2))).map
        (fun p => (p.1, Task.from_dict p.2))) s.task_dict
    rw [List.map_map, List.forall₂_map_left_iff]
    rw [List.forall₂_same]
    intro q _
    refine ⟨rfl, rfl, rfl, rfl, ?_⟩
    intro x
    show x ∈ q.2.dependencies.dedup ↔ x ∈ q.2.dependencies
    exact List.mem_dedup
  · intro c
    show c ∈ s.completed.dedup ↔ c ∈ s.completed
    exact List.mem_dedup

/-! ## C6: `add_task` validation failures mutate nothing -/

/-- C6.  Each failing form of `add_task` — blank/whitespace-only name,
non-integer priority, unparsable date, duplicate active name — reports its
specific error and returns the state completely unchanged, including the
persisted file (no save happens). -/
theorem C6_guards (s : TM) (name : String) (pv : PyVal) (d : String)
    (dd : Option (List String)) :
    (isBlankName name = true → addTask s name pv d dd = (s, AddMsg.emptyName))
    ∧ (isBlankName name = false → pv = PyVal.nonint →
        addTask s name pv d dd = (s, AddMsg.badPriority))
    ∧ (∀ pi : Int, isBlankName name = false → pv = PyVal.int pi → strptimeYmd d = false →
        addTask s name pv d dd = (s, AddMsg.badDate))
    ∧ (∀ pi : Int, isBlankName name = false → pv = PyVal.int pi → strptimeYmd d = true →
        (lookupTask s name).isSome = true →
        addTask s name pv d dd = (s, AddMsg.duplicate)) := by
  refine ⟨?_, ?_, ?_, ?_⟩
  · intro hb
    unfold addTask
    rw [if_pos hb]
  · intro hb hpv
    subst hpv
    simp only [addTask]
    rw [if_neg (by simp [hb])]
  · intro pi hb hpv hd
    subst hpv
    simp only [addTask]
    rw [if_neg (by simp [hb]), if_pos (by simp [hd])]
  · intro pi hb hpv hd hdup
    subst hpv
    simp only [addTask]
    rw [if_neg (by simp [hb]), if_neg (by simp [hd]), if_pos hdup]

/-- Witness for C6: each of the four guards fires on a concrete input and
leaves the concrete state (file included) untouched. -/
theorem C6_guards_witness :
    addTask emptyTM "  " (PyVal.int 1) "2025-01-01" none = (emptyTM, AddMsg.emptyName)
    ∧ addTask emptyTM "A" PyVal.nonint "2025-01-01" none = (emptyTM, AddMsg.badPriority)
    ∧ addTask emptyTM "A" (PyVal.int 1) "2025-13-41" none = (emptyTM, AddMsg.badDate)
    ∧ addTask (run emptyTM [Op.add "A" (PyVal.int 1) "2025-01-01" none]) "A" (PyVal.int 2)
        "2025-02-02" none =
      (run emptyTM [Op.add "A" (PyVal.int 1) "2025-01-01" none], AddMsg.duplicate) :=
  ⟨(C6_guards emptyTM "  " (PyVal.int 1) "2025-01-01" none).1 (by decide),
   (C6_guards emptyTM "A" PyVal.nonint "2025-01-01" none).2.1 (by decide) rfl,
   (C6_guards emptyTM "A" (PyVal.int 1) "2025-13-41" none).2.2.1 1 (by decide) rfl (by decide),
   (C6_guards (run emptyTM [Op.add "A" (PyVal.int 1) "2025-01-01" none]) "A" (PyVal.int 2)
      "2025-02-02" none).2.2.2 2 (by decide) rfl (by decide) (by decide)⟩

/-! ## C7: tolerant load, not-found completion -/

/-- C7.  Loading from a missing backing file leaves the (empty, freshly
constructed) state untouched and reports nothing; loading a file whose
contents are not valid JSON reports corruption, does not raise, and likewise
yields the empty state; and `complete_task` on a name not in the Active Set
reports not-found and is a no-op. -/
theorem C7_load_missing_corrupt_notfound :
    (∀ s : TM, s.file = none → loadTasks s = (s, LoadMsg.missing))
    ∧ (∀ s : TM, s.file = some none → loadTasks s = (s, LoadMsg.corrupt))
    ∧ ((initTM none).task_dict = [] ∧ (initTM none).completed = []
        ∧ (initTM (some none)).task_dict = [] ∧ (initTM (some none)).completed = [])
    ∧ (∀ (s : TM) (n : String), lookupTask s n = none →
        completeTask s n = (s, CompleteMsg.notFound)) := by
  refine ⟨?_, ?_, ⟨rfl, rfl, rfl, rfl⟩, ?_⟩
  · intro s h
    unfold loadTasks
    rw [h]
  · intro s h
    unfold loadTasks
    rw [h]
  · intro s n h
    unfold completeTask
    rw [h]
    rfl

/-- Witness for C7: a fresh manager over a missing file, a fresh manager over
a corrupt file, and completing a ghost name on the empty state. -/
theorem C7_witness :
    loadTasks { emptyTM with file := none } = ({ emptyTM with file := none }, LoadMsg.missing)
    ∧ loadTasks { emptyTM with file := some none } =
        ({ emptyTM with file := some none }, LoadMsg.corrupt)
    ∧ completeTask emptyTM "ghost" = (emptyTM, CompleteMsg.notFound) :=
  ⟨C7_load_missing_corrupt_notfound.1 { emptyTM with file := none } rfl,
   C7_load_missing_corrupt_notfound.2.1 { emptyTM with file := some none } rfl,
   C7_load_missing_corrupt_notfound.2.2.2 emptyTM "ghost" (by decide)⟩

/-! ## C8: backward-compatible deserialization -/

/-- C8.  `Task.from_dict` substitutes `"2100-01-01"` for an absent
`due_date` field and the empty dependency set for an absent `dependencies`
field, and takes every other field (and present fields) from the record
unchanged — the dependency list is kept up to set membership, as the
constructor builds a set from it. -/
theorem C8_from_dict_defaults (r : TaskRec) :
    ((Task.from_dict r).name = r.name)
    ∧ ((Task.from_dict r).priority = r.priority)
    ∧ (r.due_date = none → (Task.from_dict r).due_date = "2100-01-01")
    ∧ (∀ d, r.due_date = some d → (Task.from_dict r).due_date = d)
    ∧ (r.dependencies = none → (Task.from_dict r).dependencies = [])
    ∧ (∀ L, r.dependencies = some L →
        ∀ x, x ∈ (Task.from_dict r).dependencies ↔ x ∈ L) := by
  refine ⟨rfl, rfl, ?_, ?_, ?_, ?_⟩
  · intro h
    unfold Task.from_dict mkTask
    rw [h]
    rfl
  · intro d h
    unfold Task.from_dict mkTask
    rw [h]
    rfl
  · intro h
    unfold Task.from_dict mkTask
    rw [h]
    rfl
  · intro L h x
    unfold Task.from_dict mkTask
    rw [h]
    show x ∈ L.dedup ↔ x ∈ L
    exact List.mem_dedup

/-- Witness for C8: a legacy record with both optional fields absent gets
the sentinel date and an empty dependency set; one with fields present keeps
them. -/
theorem C8_from_dict_defaults_witness :
    (Task.from_dict ⟨"t", 5, none, none⟩).due_date = "2100-01-01"
    ∧ (Task.from_dict ⟨"t", 5, none, none⟩).dependencies = []
    ∧ (Task.from_dict ⟨"t", 5, some "2024-12-31", none⟩).due_date = "2024-12-31"
    ∧ ("x" ∈ (Task.from_dict ⟨"t", 5, none, some ["x", "y", "x"]⟩).dependencies ↔
        "x" ∈ ["x", "y", "x"]) :=
  ⟨(C8_from_dict_defaults _).2.2.1 rfl,
   (C8_from_dict_defaults _).2.2.2.2.1 rfl,
   (C8_from_dict_defaults _).2.2.2.1 "2024-12-31" rfl,
   (C8_from_dict_defaults _).2.2.2.2.2 ["x", "y", "x"] rfl "x"⟩

end Codigo3
